import Mathlib

/-!
Verification development for the trading-log dashboard repository.

The repository reads an append-only CSV trading log (columns: timestamp,
ticker, action, quantity, close, position_after, cash_after) and derives
a reconstructed portfolio state plus performance metrics.  This file is a
shallow embedding of the algorithmic core of the three source files:

* `export_dashboard.py`       (portfolio reconstruction, hourly valuation
                               series, volatility, win rate)
* `generate_static_dashboard.py` (daily valuation series, volatility,
                               win rate, max drawdown, best/worst stock)
* `generate_dashboard.py`     (the "ultra-simple MVP" total-value view)

Modelling conventions:

* A pandas DataFrame row becomes a `Row`; a DataFrame is a `List Row` in
  original file (insertion) order.  Nullable CSV cells become `Option`.
* Floats are modelled as exact rationals `ℚ`.  Where the Python code can
  produce IEEE special values (inf / NaN) or raise, the embedding makes
  this explicit: `NpVal` carries the special values produced by numpy
  float arithmetic, and `Except Unit` marks computations that can raise
  (pandas `.iloc[-1]` on an empty series raises `IndexError`).
* `pd.to_datetime` timestamps are modelled as natural numbers (seconds);
  `dt.floor("h")` / `dt.floor("D")` become flooring to multiples of
  3600 / 86400.
* `DataFrame.sort_values("timestamp")` is modelled as a stable sort by
  timestamp (`sortByTs`, an insertion sort), matching the ordering
  contract stated by the specification (ties keep insertion order).
-/

/-- One row of the trading log CSV (one pandas DataFrame row).
`position_after` is an integer column with nulls, `close` and
`cash_after` are float columns with nulls. -/
structure Row where
  timestamp : Nat
  ticker : String
  action : String
  quantity : Int
  close : Option ℚ
  position_after : Option Int
  cash_after : Option ℚ
deriving DecidableEq, Repr

/-- Portfolio state held by the `PortfolioManager` object: per-ticker share
counts plus cash. -/
structure PState where
  positions : String → Int
  cash : ℚ

/-- Modelled from the spec: the caller-supplied default portfolio state of
`PortfolioManager` (defined in `stgeo_v1.py`, which is not part of the
sources here).  Per the specification it has all-zero positions and a
default cash amount. -/
def defaultState (c : ℚ) : PState := ⟨fun _ => 0, c⟩

/-- Result of `series.dropna().iloc[-1]` when at least one non-null entry
exists: the last non-null value of `f` over the rows, in list order. -/
def lastSome {β : Type} (f : Row → Option β) : List Row → Option β
  | [] => none
  | r :: l =>
    match lastSome f l with
    | some v => some v
    | none => f r

theorem lastSome_cons {β : Type} (f : Row → Option β) (r : Row) (l : List Row) :
    lastSome f (r :: l) = match lastSome f l with
      | some v => some v
      | none => f r := rfl

theorem lastSome_isSome_iff_any {β : Type} (f : Row → Option β) (l : List Row) :
    (lastSome f l).isSome = l.any (fun r => (f r).isSome) := by
  induction l with
  | nil => rfl
  | cons r l ih =>
    simp only [lastSome, List.any_cons]
    cases h : lastSome f l with
    | some v =>
      simp only [Option.isSome_some]
      rw [h] at ih
      simp [← ih]
    | none =>
      rw [h] at ih
      simp [← ih, Bool.or_comm]

/-- `df["timestamp"].max()` over a list of rows (0 on the empty list; the
code only calls it on non-empty frames). -/
def maxTs (l : List Row) : Nat := l.foldr (fun r m => max r.timestamp m) 0

theorem maxTs_cons (r : Row) (l : List Row) :
    maxTs (r :: l) = max r.timestamp (maxTs l) := rfl

theorem le_maxTs_of_mem {r : Row} {l : List Row} (h : r ∈ l) :
    r.timestamp ≤ maxTs l := by
  induction l with
  | nil => cases h
  | cons a l ih =>
    rcases List.mem_cons.mp h with h | h
    · subst h; exact le_max_left _ _
    · exact le_trans (ih h) (le_max_right _ _)

theorem exists_mem_maxTs {l : List Row} (h : l ≠ []) :
    ∃ r ∈ l, r.timestamp = maxTs l := by
  induction l with
  | nil => exact absurd rfl h
  | cons a l ih =>
    cases l with
    | nil =>
      refine ⟨a, List.mem_singleton_self a, ?_⟩
      simp [maxTs]
    | cons b t =>
      rcases ih (by simp) with ⟨r, hr, hrts⟩
      rw [maxTs_cons]
      rcases le_total a.timestamp (maxTs (b :: t)) with hle | hle
      · exact ⟨r, List.mem_cons_of_mem _ hr, by rw [hrts, max_eq_right hle]⟩
      · exact ⟨a, List.mem_cons_self _ _, by rw [max_eq_left hle]⟩

/-- Row ordering used by `sort_values("timestamp")`. -/
def tsLE (a b : Row) : Prop := a.timestamp ≤ b.timestamp

instance : DecidableRel tsLE := fun a b => inferInstanceAs (Decidable (a.timestamp ≤ b.timestamp))

/-- Insert a row into a (timestamp-sorted) list, keeping equal timestamps
in their existing relative order (the inserted row, which originally came
first, ends up before rows with the same timestamp). -/
def insertByTs (a : Row) : List Row → List Row
  | [] => [a]
  | b :: l => if a.timestamp ≤ b.timestamp then a :: b :: l else b :: insertByTs a l

/-- Stable sort by timestamp: the model of `df.sort_values("timestamp")`.
Rows with equal timestamps keep their original (file) order, matching the
tie-breaking contract stated in the specification. -/
def sortByTs : List Row → List Row
  | [] => []
  | a :: l => insertByTs a (sortByTs l)

theorem insertByTs_ne_nil (a : Row) (l : List Row) : insertByTs a l ≠ [] := by
  cases l with
  | nil => simp [insertByTs]
  | cons b t =>
    by_cases h : a.timestamp ≤ b.timestamp <;> simp [insertByTs, h]

theorem sortByTs_eq_nil_iff (l : List Row) : sortByTs l = [] ↔ l = [] := by
  cases l with
  | nil => simp [sortByTs]
  | cons a t => simp [sortByTs, insertByTs_ne_nil]

theorem sorted_insertByTs {a : Row} {l : List Row} (h : l.Pairwise tsLE) :
    (insertByTs a l).Pairwise tsLE := by
  induction l with
  | nil => simp [insertByTs, List.pairwise_singleton]
  | cons b t ih =>
    rcases List.pairwise_cons.mp h with ⟨hb, ht⟩
    by_cases hab : a.timestamp ≤ b.timestamp
    · simp only [insertByTs, if_pos hab]
      refine List.pairwise_cons.mpr ⟨?_, h⟩
      intro x hx
      rcases List.mem_cons.mp hx with hx | hx
      · subst hx; exact hab
      · exact le_trans hab (hb x hx)
    · simp only [insertByTs, if_neg hab]
      refine List.pairwise_cons.mpr ⟨?_, ih ht⟩
      intro x hx
      -- members of the insertion are a or members of t
      have hmem : x = a ∨ x ∈ t := by
        clear ih ht hb h
        induction t with
        | nil => simpa [insertByTs] using hx
        | cons c u ihu =>
          by_cases hac : a.timestamp ≤ c.timestamp
          · simp only [insertByTs, if_pos hac] at hx
            rcases List.mem_cons.mp hx with hx | hx
            · exact Or.inl hx
            · exact Or.inr hx
          · simp only [insertByTs, if_neg hac] at hx
            rcases List.mem_cons.mp hx with hx | hx
            · exact Or.inr (by simp [hx])
            · rcases ihu hx with hx | hx
              · exact Or.inl hx
              · exact Or.inr (List.mem_cons_of_mem _ hx)
      rcases hmem with hx | hx
      · subst hx; exact le_of_lt (lt_of_not_le hab)
      · exact hb x hx

theorem sorted_sortByTs (l : List Row) : (sortByTs l).Pairwise tsLE := by
  induction l with
  | nil => simp [sortByTs]
  | cons a t ih => exact sorted_insertByTs ih

theorem insertByTs_eq_cons {a : Row} {l : List Row}
    (h : ∀ x ∈ l, a.timestamp ≤ x.timestamp) : insertByTs a l = a :: l := by
  cases l with
  | nil => rfl
  | cons b t => simp [insertByTs, h b (List.mem_cons_self _ _)]

/-- Filtering commutes with inserting into a sorted list. -/
theorem filter_insertByTs (p : Row → Bool) {a : Row} {l : List Row}
    (h : l.Pairwise tsLE) :
    (insertByTs a l).filter p
      = if p a then insertByTs a (l.filter p) else l.filter p := by
  induction l with
  | nil => by_cases hpa : p a <;> simp [insertByTs, hpa]
  | cons b t ih =>
    rcases List.pairwise_cons.mp h with ⟨hb, ht⟩
    by_cases hab : a.timestamp ≤ b.timestamp
    · simp only [insertByTs, if_pos hab]
      by_cases hpa : p a
      · have hhead : ∀ x ∈ (b :: t).filter p, a.timestamp ≤ x.timestamp := by
          intro x hx
          rcases List.mem_filter.mp hx with ⟨hx, _⟩
          rcases List.mem_cons.mp hx with hx | hx
          · subst hx; exact hab
          · exact le_trans hab (hb x hx)
        rw [List.filter_cons_of_pos hpa, if_pos hpa, insertByTs_eq_cons hhead]
      · rw [List.filter_cons_of_neg hpa, if_neg hpa]
    · simp only [insertByTs, if_neg hab]
      by_cases hpb : p b
      · rw [List.filter_cons_of_pos hpb, List.filter_cons_of_pos hpb, ih ht]
        by_cases hpa : p a
        · rw [if_pos hpa, if_pos hpa, insertByTs]
          rw [if_neg hab]
        · rw [if_neg hpa, if_neg hpa]
      · rw [List.filter_cons_of_neg hpb, List.filter_cons_of_neg hpb, ih ht]

/-- Filtering commutes with the stable sort (the stability property the
whole development relies on: a stable sort of a filtered list equals the
filter of the stably sorted list). -/
theorem filter_sortByTs (p : Row → Bool) (l : List Row) :
    (sortByTs l).filter p = sortByTs (l.filter p) := by
  induction l with
  | nil => rfl
  | cons a t ih =>
    show (insertByTs a (sortByTs t)).filter p = sortByTs ((a :: t).filter p)
    rw [filter_insertByTs p (sorted_sortByTs t)]
    by_cases hpa : p a
    · rw [if_pos hpa, List.filter_cons_of_pos hpa, ih]
      rfl
    · rw [if_neg hpa, List.filter_cons_of_neg hpa, ih]

/-- Sorting an already-sorted list is the identity. -/
theorem sortByTs_eq_self {l : List Row} (h : l.Pairwise tsLE) : sortByTs l = l := by
  induction l with
  | nil => rfl
  | cons a t ih =>
    rcases List.pairwise_cons.mp h with ⟨ha, ht⟩
    show insertByTs a (sortByTs t) = a :: t
    rw [ih ht]
    exact insertByTs_eq_cons ha

theorem maxTs_insertByTs (a : Row) (l : List Row) :
    maxTs (insertByTs a l) = max a.timestamp (maxTs l) := by
  induction l with
  | nil => rfl
  | cons b t ih =>
    by_cases hab : a.timestamp ≤ b.timestamp
    · simp [insertByTs, hab, maxTs_cons]
    · simp only [insertByTs, if_neg hab, maxTs_cons, ih]
      rw [max_left_comm]

theorem maxTs_sortByTs (l : List Row) : maxTs (sortByTs l) = maxTs l := by
  induction l with
  | nil => rfl
  | cons a t ih =>
    show maxTs (insertByTs a (sortByTs t)) = maxTs (a :: t)
    rw [maxTs_insertByTs, ih, maxTs_cons]

/-! ### StateReconstructor: `recalculate_portfolio_from_csv` (export_dashboard.py, lines 53-96) -/

/-- A checkpoint row: both `position_after` and `cash_after` are non-null
(`df["position_after"].notna() & df["cash_after"].notna()`). -/
def isCheckpoint (r : Row) : Bool := r.position_after.isSome && r.cash_after.isSome

/-- Share count assigned to ticker `s` from the rows at the latest
checkpoint timestamp: the dictionary built by iterating the rows and
overwriting `new_portfolio[row["ticker"]]` whenever `position_after` is
non-null, so the last non-null occurrence wins. -/
def newPortfolio (atT : List Row) (s : String) : Option Int :=
  lastSome (fun r => r.position_after) (atT.filter (fun r => r.ticker == s))

/-- `recalculate_portfolio_from_csv` (export_dashboard.py lines 53-96):
sort the log by timestamp, select checkpoint rows, and if any exist load
positions and cash from the rows at the maximum checkpoint timestamp;
otherwise the `PortfolioManager` state is left at its default.  The whole
body is wrapped in `try/except`, so the (unreachable) failure of
`latest_state["cash_after"].dropna().iloc[-1]` also leaves the default
state in place. -/
def recalculate_portfolio_from_csv (default : PState) (stocks : List String)
    (df : List Row) : PState :=
  let sorted := sortByTs df
  let lastComplete := sorted.filter isCheckpoint
  if lastComplete.isEmpty then default
  else
    let latestTimestamp := maxTs lastComplete
    let latestState := sorted.filter (fun r => r.timestamp == latestTimestamp)
    match lastSome (fun r => r.cash_after) latestState with
    | some latestCash =>
        { positions := fun s =>
            if s ∈ stocks then (newPortfolio latestState s).getD 0 else default.positions s,
          cash := latestCash }
    | none => default

/-- C1: for every log containing at least one checkpoint row, the
reconstruction considers exactly the rows whose timestamp equals the
maximum checkpoint timestamp `T`: each tracked ticker gets the
`position_after` of its last row at `T` carrying one (0 when none), in
original insertion order, and cash is the last non-null `cash_after`
among the rows at `T`, in original insertion order.  Both right-hand
sides below are phrased over the unsorted log `df`, so the theorem also
certifies that the stable sort preserves the original order of the rows
tied at `T`. -/
theorem recalc_latest_checkpoint_correct (default : PState) (stocks : List String)
    (df : List Row) (h : df.filter isCheckpoint ≠ []) :
    (∀ s ∈ stocks,
      (recalculate_portfolio_from_csv default stocks df).positions s
        = (newPortfolio (df.filter
            (fun r => r.timestamp == maxTs (df.filter isCheckpoint))) s).getD 0)
    ∧ lastSome (fun r => r.cash_after)
        (df.filter (fun r => r.timestamp == maxTs (df.filter isCheckpoint)))
      = some (recalculate_portfolio_from_csv default stocks df).cash := by
  have hsortfilter : (sortByTs df).filter isCheckpoint = sortByTs (df.filter isCheckpoint) :=
    filter_sortByTs _ _
  have hne : (sortByTs df).filter isCheckpoint ≠ [] := by
    rw [hsortfilter, Ne, sortByTs_eq_nil_iff]; exact h
  have hmax : maxTs ((sortByTs df).filter isCheckpoint) = maxTs (df.filter isCheckpoint) := by
    rw [hsortfilter, maxTs_sortByTs]
  set T := maxTs (df.filter isCheckpoint) with hT
  -- the rows at T of the sorted frame are exactly the rows at T of the file
  have hatT : (sortByTs df).filter (fun r => r.timestamp == T)
      = df.filter (fun r => r.timestamp == T) := by
    rw [filter_sortByTs]
    refine sortByTs_eq_self ?_
    refine List.pairwise_iff_forall_sublist.mpr ?_
    intro a b hab
    have ha := hab.subset (List.mem_cons_self a [b])
    have hb := hab.subset (List.mem_cons_of_mem a (List.mem_singleton_self b))
    have ha' := (List.mem_filter.mp ha).2
    have hb' := (List.mem_filter.mp hb).2
    show a.timestamp ≤ b.timestamp
    simp only [beq_iff_eq] at ha' hb'
    omega
  -- there is a checkpoint row at T, so the cash lookup succeeds
  have hcash : (lastSome (fun r => r.cash_after)
      (df.filter (fun r => r.timestamp == T))).isSome = true := by
    rw [lastSome_isSome_iff_any]
    rcases exists_mem_maxTs h with ⟨r, hr, hrts⟩
    rcases List.mem_filter.mp hr with ⟨hrdf, hrck⟩
    refine List.any_eq_true.mpr ⟨r, List.mem_filter.mpr ⟨hrdf, ?_⟩, ?_⟩
    · exact beq_iff_eq.mpr hrts
    · exact (Bool.and_elim_right hrck)
  rcases Option.isSome_iff_exists.mp hcash with ⟨c, hc⟩
  have hrecalc : recalculate_portfolio_from_csv default stocks df =
      { positions := fun s =>
          if s ∈ stocks then (newPortfolio (df.filter (fun r => r.timestamp == T)) s).getD 0
          else default.positions s,
        cash := c } := by
    unfold recalculate_portfolio_from_csv
    rw [if_neg (by simpa [List.isEmpty_iff] using hne)]
    simp only [hmax, ← hT, hatT, hc]
  rw [hrecalc]
  exact ⟨fun s hs => by simp [hs], hc⟩

/-- Concrete log used to exercise the reconstruction theorems: a price
row and a checkpoint row for ticker A at time 10, a later plain price
row at time 20 (no checkpoint). -/
def demoDf : List Row :=
  [ ⟨10, "A", "PRICE", 0, some 150, none, none⟩,
    ⟨10, "A", "BUY", 10, some 150, some 10, some 5000⟩,
    ⟨20, "A", "PRICE", 0, some 160, none, none⟩ ]

theorem recalc_latest_checkpoint_witness :
    lastSome (fun r => r.cash_after)
        (demoDf.filter (fun r => r.timestamp == maxTs (demoDf.filter isCheckpoint)))
      = some (recalculate_portfolio_from_csv (defaultState 1000) ["A"] demoDf).cash :=
  (recalc_latest_checkpoint_correct (defaultState 1000) ["A"] demoDf (by decide)).2

/-- C9: for every log containing no checkpoint row, the reconstruction
leaves the caller-supplied default state in place (all-zero positions and
default cash) and raises no error: the guard `if not last_complete.empty`
fails and the function body performs no state update. -/
theorem recalc_no_checkpoint_default (c : ℚ) (stocks : List String)
    (df : List Row) (h : ∀ r ∈ df, isCheckpoint r = false) :
    recalculate_portfolio_from_csv (defaultState c) stocks df = defaultState c := by
  have hnil : df.filter isCheckpoint = [] :=
    List.filter_eq_nil_iff.mpr (fun r hr => by simp [h r hr])
  have : (sortByTs df).filter isCheckpoint = [] := by
    rw [filter_sortByTs, hnil]; rfl
  unfold recalculate_portfolio_from_csv
  rw [if_pos (by simp [this])]

theorem recalc_no_checkpoint_witness :
    recalculate_portfolio_from_csv (defaultState 10000) ["A"]
      [⟨10, "A", "PRICE", 0, some 150, none, none⟩] = defaultState 10000 :=
  recalc_no_checkpoint_default 10000 ["A"] _ (by decide)

/-! ### Numpy float model

The Python code runs its arithmetic on numpy/pandas float64 values.  With
finite exact operands the only special values that can arise here come
from dividing by zero: `0/0 = nan`, `x/0 = ±inf`, and NaN makes every
comparison false.  `NpVal` captures exactly that. -/

/-- A numpy float64 value as produced by the embedded code: an exact
rational, or one of the special values NaN / +inf / -inf. -/
inductive NpVal where
  | num (q : ℚ)
  | nan
  | inf
  | neginf
deriving DecidableEq, Repr

/-- Float division of finite values: IEEE semantics for a zero divisor. -/
def fdiv (a b : ℚ) : NpVal :=
  if b = 0 then (if a = 0 then .nan else if 0 < a then .inf else .neginf)
  else .num (a / b)

/-- Multiplication of a float by a positive finite constant (used for the
`* 100` scalings). -/
def npScale (v : NpVal) (c : ℚ) : NpVal :=
  match v with
  | .num a => .num (a * c)
  | .nan => .nan
  | .inf => .inf
  | .neginf => .neginf

/-- IEEE `>` on floats: any comparison involving NaN is false. -/
def npGt : NpVal → NpVal → Bool
  | .num a, .num b => b < a
  | _, .nan => false
  | .nan, _ => false
  | .inf, .inf => false
  | .inf, _ => true
  | .num _, .inf => false
  | .num _, .neginf => true
  | .neginf, _ => false

/-- IEEE `<` on floats. -/
def npLt (a b : NpVal) : Bool := npGt b a

/-- IEEE float addition (finite operands except for the special values). -/
def npAdd : NpVal → NpVal → NpVal
  | .num a, .num b => .num (a + b)
  | .nan, _ => .nan
  | _, .nan => .nan
  | .inf, .neginf => .nan
  | .neginf, .inf => .nan
  | .inf, _ => .inf
  | _, .inf => .inf
  | .neginf, _ => .neginf
  | _, .neginf => .neginf

theorem npAdd_num_zero (v : NpVal) : npAdd v (.num 0) = v := by
  cases v <;> simp [npAdd]

/-! ### TimeBucketAggregator

`calculate_performance_metrics` in export_dashboard.py (lines 500-513,
hourly buckets via `dt.floor("h")`) and in generate_static_dashboard.py
(lines 420-433, daily buckets via `dt.floor("D")`) build the valuation
series with identical logic; the same loop also appears in
`create_timeline_chart` and in the static timeline block.  The bucket
granularity is a parameter `bf` here. -/

/-- `dt.floor("h")` on a timestamp in seconds. -/
def floorHour (t : Nat) : Nat := t / 3600 * 3600

/-- `dt.floor("D")` on a timestamp in seconds. -/
def floorDay (t : Nat) : Nat := t / 86400 * 86400

/-- `df["timestamp"].dt.floor(...).unique()`: bucket keys in order of
first appearance. -/
def uniqueKeys (seen : List Nat) : List Nat → List Nat
  | [] => []
  | a :: l => if a ∈ seen then uniqueKeys seen l else a :: uniqueKeys (a :: seen) l

def bucketKeys (bf : Nat → Nat) (df : List Row) : List Nat :=
  uniqueKeys [] (df.map (fun r => bf r.timestamp))

/-- Contribution of one tracked ticker to a bucket, from its rows
`stock_rows` within the bucket: skipped (0) when it has no row or no
non-null `position_after`; otherwise the last non-null `position_after`
times the last non-null `close`.  When every `close` is null,
`stock_rows["close"].dropna().iloc[-1]` raises `IndexError`, modelled as
`.error ()`. -/
def tickerValue (srows : List Row) : Except Unit ℚ :=
  if srows.isEmpty || srows.all (fun r => r.position_after.isNone) then .ok 0
  else
    match lastSome (fun r => r.position_after) srows, lastSome (fun r => r.close) srows with
    | some p, some c => .ok ((p : ℚ) * c)
    | some _, none => .error ()
    | none, _ => .ok 0

/-- `stock_value`: sum of the per-ticker contributions over the tracked
tickers, in tracked-ticker order; an IndexError anywhere aborts. -/
def stockSum (rows : List Row) : List String → Except Unit ℚ
  | [] => .ok 0
  | s :: ss => do
      let v ← tickerValue (rows.filter (fun r => r.ticker == s))
      let rest ← stockSum rows ss
      pure (v + rest)

/-- Valuation series builder: one entry per bucket containing a non-null
`cash_after` (sparse series), whose value is `stock_value + latest_cash`. -/
def pvGo (bf : Nat → Nat) (df : List Row) (stocks : List String) :
    List Nat → Except Unit (List ℚ)
  | [] => .ok []
  | b :: bs =>
    let rows := df.filter (fun r => bf r.timestamp == b)
    match lastSome (fun r => r.cash_after) rows with
    | none => pvGo bf df stocks bs
    | some c => do
        let sv ← stockSum rows stocks
        let rest ← pvGo bf df stocks bs
        pure ((sv + c) :: rest)

/-- The `portfolio_values` list of `calculate_performance_metrics`
(hourly in export_dashboard.py, daily in generate_static_dashboard.py,
selected by `bf`). -/
def portfolioValues (bf : Nat → Nat) (df : List Row) (stocks : List String) :
    Except Unit (List ℚ) :=
  pvGo bf df stocks (bucketKeys bf df)

/-- Log with a single emitted bucket in which tracked ticker A has a
non-null `position_after` but only a null `close`. -/
def nullCloseDf : List Row := [⟨0, "A", "ADJUST", 0, none, some 1, some 100⟩]

/-- C2: the claim says a ticker whose rows in an emitted bucket carry a
non-null `position_after` but only null `close` values contributes 0 and
never causes a crash.  The code disagrees: after the `position_after`
check passes, `price = stock_rows["close"].dropna().iloc[-1]` indexes an
empty series and raises `IndexError`; the dead guard
`if not pd.isna(position) and not pd.isna(price)` two lines later shows
the skip-on-missing-data intent, so this is a code bug.  The valuation
series computation aborts on the log above. -/
theorem bucket_null_close_crash :
    portfolioValues floorHour nullCloseDf ["A"] = .error ()
      ∧ tickerValue (nullCloseDf.filter (fun r => r.ticker == "A")) = .error () := by
  constructor <;> rfl

/-- Period returns of a valuation series:
`returns = np.diff(portfolio_values) / portfolio_values[:-1]`
(export_dashboard.py line 518, generate_static_dashboard.py line 439).
A zero prior value makes numpy emit an IEEE special value (NaN for a zero
difference, ±inf otherwise), modelled as `none`; there is no guard in the
code. -/
def periodReturns (vals : List ℚ) : List (Option ℚ) :=
  (vals.zip vals.tail).map (fun p => if p.1 = 0 then none else some ((p.2 - p.1) / p.1))

/-- C3: the claim says division by a zero prior value is guarded and the
step contributes 0.  The code has no guard: on the series `[0, 100]` the
single period return is `(100 - 0) / 0`, which numpy turns into `+inf`
(an undefined marker, `none` here), not into the claimed 0, and which
then propagates NaN into the volatility.  The formula itself
(`(v_i - v_prev) / v_prev`) is as claimed, shown on `[100, 120]`. -/
theorem zero_prior_return_unguarded :
    periodReturns [0, 100] = [none]
      ∧ periodReturns [0, 100] ≠ [some 0]
      ∧ periodReturns [100, 120] = [some ((120 - 100) / 100)] := by
  refine ⟨rfl, by decide, ?_⟩
  simp [periodReturns]

/-! ### Win rate

`calculate_performance_metrics`, export_dashboard.py lines 520-531 and
generate_static_dashboard.py lines 441-452 (both loops are identical;
the static file adds a redundant `if len(trades) > 0` on a branch where
`trades` is non-empty). -/

def isBuy (r : Row) : Bool := r.action == "BUY"

/-- `df[(df["ticker"] == trade["ticker"]) & (df["timestamp"] > trade["timestamp"])]`:
price records of the same ticker strictly later than the trade, in file
order. -/
def futureRows (df : List Row) (t : Row) : List Row :=
  df.filter (fun r => r.ticker == t.ticker && t.timestamp < r.timestamp)

/-- `not future_prices.empty and future_prices.iloc[-1] > trade["close"]`:
the trade wins iff the close of the positionally last future row exceeds
the trade close (a null on either side makes the comparison false, as
with NaN). -/
def codeWins (df : List Row) (t : Row) : Bool :=
  match (futureRows df t).getLast? with
  | none => false
  | some lr =>
    match lr.close, t.close with
    | some fc, some tc => decide (tc < fc)
    | _, _ => false

/-- `win_rate = (winning_trades / len(trades)) * 100`, 0 with no BUY rows. -/
def winRate (df : List Row) : ℚ :=
  if (df.filter isBuy).isEmpty then 0
  else (((df.filter isBuy).countP (fun t => codeWins df t) : ℚ)
          / ((df.filter isBuy).length : ℚ)) * 100

/-- The claim reads the winning condition chronologically: the row of the
maximum timestamp among the future rows of the ticker (last one in
insertion order on ties). -/
def chronoLast (l : List Row) : Option Row :=
  (l.filter (fun r => r.timestamp == maxTs l)).getLast?

/-- Winning per the claim: the chronologically last close of the same
ticker strictly after the trade exceeds the trade close; trades with no
later observation are non-winning. -/
def specWins (df : List Row) (t : Row) : Bool :=
  match chronoLast (futureRows df t) with
  | none => false
  | some lr =>
    match lr.close, t.close with
    | some fc, some tc => decide (tc < fc)
    | _, _ => false

theorem getLast?_filter_maxTs {l : List Row} (h : l.Pairwise tsLE) :
    (l.filter (fun r => r.timestamp == maxTs l)).getLast? = l.getLast? := by
  induction l with
  | nil => rfl
  | cons a t ih =>
    cases t with
    | nil =>
      have hmax : maxTs [a] = a.timestamp := by simp [maxTs]
      rw [hmax]
      simp
    | cons b u =>
      rcases List.pairwise_cons.mp h with ⟨ha, ht⟩
      have hmax : maxTs (a :: b :: u) = maxTs (b :: u) := by
        rw [maxTs_cons]
        exact max_eq_right (le_trans (ha b (List.mem_cons_self _ _))
          (le_maxTs_of_mem (List.mem_cons_self b u)))
      rw [hmax]
      have hfne : (b :: u).filter (fun r => r.timestamp == maxTs (b :: u)) ≠ [] := by
        rcases exists_mem_maxTs (l := b :: u) (by simp) with ⟨r, hr, hrts⟩
        exact List.ne_nil_of_mem (List.mem_filter.mpr ⟨hr, beq_iff_eq.mpr hrts⟩)
      rw [List.getLast?_cons_cons, ← ih ht]
      by_cases hpa : (a.timestamp == maxTs (b :: u)) = true
      · rw [List.filter_cons, if_pos hpa]
        cases hfl : (b :: u).filter (fun r => r.timestamp == maxTs (b :: u)) with
        | nil => exact absurd hfl hfne
        | cons x xs => rw [List.getLast?_cons_cons]
      · rw [List.filter_cons, if_neg hpa]

theorem codeWins_eq_specWins {df : List Row} (h : df.Pairwise tsLE) (t : Row) :
    codeWins df t = specWins df t := by
  have hfut : (futureRows df t).Pairwise tsLE :=
    List.Pairwise.sublist (by unfold futureRows; exact List.filter_sublist df) h
  unfold codeWins specWins chronoLast
  rw [getLast?_filter_maxTs hfut]

/-- C4: for a log in ascending timestamp order (the ordering contract the
data model stipulates for the append-only log; the metrics code reads the
file order as chronological), the win rate equals (number of BUY rows
whose chronologically last same-ticker close after the trade exceeds the
trade close) / (number of BUY rows) * 100; BUY rows with no later
observation stay in the denominator as non-winning (`specWins` is false
for them), the rate is 0 with no BUY rows, and it always lies in
[0, 100]. -/
theorem winRate_spec (df : List Row) (h : df.Pairwise tsLE) :
    winRate df
        = ((df.filter isBuy).countP (fun t => specWins df t) : ℚ)
            / ((df.filter isBuy).length : ℚ) * 100
      ∧ 0 ≤ winRate df ∧ winRate df ≤ 100
      ∧ (df.filter isBuy = [] → winRate df = 0) := by
  have hcount : (df.filter isBuy).countP (fun t => codeWins df t)
      = (df.filter isBuy).countP (fun t => specWins df t) :=
    List.countP_congr (fun t _ => by rw [codeWins_eq_specWins h])
  unfold winRate
  by_cases hemp : (df.filter isBuy).isEmpty
  · have hnil : df.filter isBuy = [] := List.isEmpty_iff.mp hemp
    rw [if_pos hemp]
    refine ⟨?_, le_refl 0, by norm_num, fun _ => rfl⟩
    rw [hnil]
    simp
  · rw [if_neg hemp]
    have hnil : df.filter isBuy ≠ [] := by simpa [List.isEmpty_iff] using hemp
    have hlen : 0 < ((df.filter isBuy).length : ℚ) := by
      exact_mod_cast List.length_pos.mpr hnil
    refine ⟨by rw [hcount], by positivity, ?_, fun hn => absurd hn hnil⟩
    have hle : ((df.filter isBuy).countP (fun t => codeWins df t) : ℚ)
        ≤ ((df.filter isBuy).length : ℚ) := by
      exact_mod_cast List.countP_le_length _
    have hq : ((df.filter isBuy).countP (fun t => codeWins df t) : ℚ)
        / ((df.filter isBuy).length : ℚ) ≤ 1 := (div_le_one hlen).mpr hle
    have := mul_le_mul_of_nonneg_right hq (by norm_num : (0 : ℚ) ≤ 100)
    simpa using this

/-- Ascending two-row log: one BUY of A at 10 followed by a later close
of 20, so the single trade wins. -/
def winDemoDf : List Row :=
  [ ⟨0, "A", "BUY", 10, some 10, some 10, some 9900⟩,
    ⟨3600, "A", "PRICE", 0, some 20, none, none⟩ ]

theorem winRate_spec_witness :
    winRate winDemoDf
        = ((winDemoDf.filter isBuy).countP (fun t => specWins winDemoDf t) : ℚ)
            / ((winDemoDf.filter isBuy).length : ℚ) * 100
      ∧ 0 ≤ winRate winDemoDf ∧ winRate winDemoDf ≤ 100
      ∧ (winDemoDf.filter isBuy = [] → winRate winDemoDf = 0) :=
  winRate_spec winDemoDf (by decide)

/-! ### Max drawdown

generate_static_dashboard.py lines 454-462:
```
peak = portfolio_values[0]
max_dd = 0
for value in portfolio_values:
    if value > peak:
        peak = value
    dd = ((peak - value) / peak) * 100
    if dd > max_dd:
        max_dd = dd
```
The peak update happens before the drawdown of the current point is
taken.  A zero peak makes the division produce NaN (equal values) or
+inf (numpy float semantics), captured by `NpVal`. -/

/-- `if value > peak: peak = value`. -/
def newPeak (p v : ℚ) : ℚ := if p < v then v else p

/-- `dd = ((peak - value) / peak) * 100`. -/
def ddOf (p v : ℚ) : NpVal := npScale (fdiv (p - v) p) 100

/-- One iteration of the drawdown loop on the state (peak, max_dd). -/
def ddStep (st : ℚ × NpVal) (v : ℚ) : ℚ × NpVal :=
  (newPeak st.1 v,
   if npGt (ddOf (newPeak st.1 v) v) st.2 then ddOf (newPeak st.1 v) v else st.2)

/-- `max_dd` after the loop; `portfolio_values[0]` is modelled with
`headD` (the call site guarantees at least two values). -/
def maxDrawdown (vals : List ℚ) : NpVal :=
  (vals.foldl ddStep (vals.headD 0, .num 0)).2

theorem ddStep_inv {st : ℚ × NpVal} {v : ℚ} (hv : 0 ≤ v)
    (hp : 0 ≤ st.1) (h : ∃ d, st.2 = .num d ∧ 0 ≤ d ∧ d ≤ 100) :
    0 ≤ (ddStep st v).1 ∧ ∃ d, (ddStep st v).2 = .num d ∧ 0 ≤ d ∧ d ≤ 100 := by
  rcases h with ⟨d, hd, hd0, hd1⟩
  have hpk : 0 ≤ newPeak st.1 v := by
    unfold newPeak; split <;> assumption
  have hvle : v ≤ newPeak st.1 v := by
    unfold newPeak; split
    · exact le_refl v
    · exact le_of_not_lt (by assumption)
  refine ⟨hpk, ?_⟩
  show ∃ e, (if npGt (ddOf (newPeak st.1 v) v) st.2
      then ddOf (newPeak st.1 v) v else st.2) = .num e ∧ 0 ≤ e ∧ e ≤ 100
  by_cases hz : newPeak st.1 v = 0
  · have hv0 : v = 0 := le_antisymm (hz ▸ hvle) hv
    have hnan : ddOf (newPeak st.1 v) v = .nan := by
      unfold ddOf fdiv
      rw [hz, hv0]
       
      norm_num [npScale]
    rw [hnan, hd]
    exact ⟨d, by simp [npGt], hd0, hd1⟩
  · have hpos : 0 < newPeak st.1 v := lt_of_le_of_ne hpk (Ne.symm hz)
    have hdd : ddOf (newPeak st.1 v) v
        = .num ((newPeak st.1 v - v) / newPeak st.1 v * 100) := by
      unfold ddOf fdiv
      rw [if_neg hz]
      rfl
    have hx0 : 0 ≤ (newPeak st.1 v - v) / newPeak st.1 v * 100 := by
      have : 0 ≤ newPeak st.1 v - v := by linarith
      positivity
    have hx1 : (newPeak st.1 v - v) / newPeak st.1 v * 100 ≤ 100 := by
      have hq : (newPeak st.1 v - v) / newPeak st.1 v ≤ 1 :=
        (div_le_one hpos).mpr (by linarith)
      nlinarith
    rw [hdd, hd]
    unfold npGt
    split
    · exact ⟨_, rfl, hx0, hx1⟩
    · exact ⟨d, rfl, hd0, hd1⟩

theorem ddFold_bound (l : List ℚ) :
    ∀ (p d : ℚ), 0 ≤ p → 0 ≤ d → d ≤ 100 → (∀ v ∈ l, 0 ≤ v) →
    ∃ e, (l.foldl ddStep (p, .num d)).2 = .num e ∧ 0 ≤ e ∧ e ≤ 100 := by
  induction l with
  | nil => exact fun p d hp hd0 hd1 _ => ⟨d, rfl, hd0, hd1⟩
  | cons v t ih =>
    intro p d hp hd0 hd1 hnn
    rw [List.foldl_cons]
    have hinv := @ddStep_inv (p, .num d) v
      (hnn v (List.mem_cons_self _ _)) hp ⟨d, rfl, hd0, hd1⟩
    rcases hinv with ⟨hpk, e, he, he0, he1⟩
    have hstep : ddStep (p, .num d) v = ((ddStep (p, .num d) v).1, .num e) := by
      rw [← he]
    rw [hstep]
    exact ih _ e hpk he0 he1 (fun x hx => hnn x (List.mem_cons_of_mem _ hx))

theorem ddFold_monotone (l : List ℚ) :
    ∀ p : ℚ, List.Chain (· ≤ ·) p l → (l.foldl ddStep (p, .num 0)).2 = .num 0 := by
  induction l with
  | nil => exact fun p _ => rfl
  | cons v t ih =>
    intro p hchain
    rcases List.chain_cons.mp hchain with ⟨hpv, ht⟩
    rw [List.foldl_cons]
    have hpeak : newPeak p v = v := by
      unfold newPeak
      split
      · rfl
      · exact le_antisymm hpv (le_of_not_lt (by assumption))
    have hstep : ddStep (p, .num 0) v = (v, .num 0) := by
      unfold ddStep
      rw [hpeak]
      by_cases hz : v = 0
      · have : ddOf v v = .nan := by
          unfold ddOf fdiv
          rw [hz]
          norm_num [npScale]
        rw [this]
        simp [npGt]
      · have : ddOf v v = .num 0 := by
          unfold ddOf fdiv
          rw [if_neg hz]
          norm_num [npScale]
        rw [this]
        simp [npGt]
    rw [hstep]
    exact ih v ht

/-- C5 counterexample: on the valuation series `[1, -1]` the computed
max drawdown is `(1 - (-1)) / 1 * 100 = 200`, outside the claimed range
`[0, 100]`: the claimed bound fails once a valuation goes negative. -/
theorem maxDrawdown_above_hundred :
    maxDrawdown [1, -1] = .num 200 ∧ ¬((200 : ℚ) ≤ 100) := by
  constructor
  · norm_num [maxDrawdown, ddStep, newPeak, ddOf, fdiv, npScale, npGt]
  · norm_num

/-- C5 (amended): the drawdown loop initializes the running peak to the
first valuation, takes `(P - v_i)/P * 100` against the peak seen so far
(peak updated first, which only zeroes the negative drawdowns the
claimed order would produce), and reports the maximum observed.  For a
series of NON-NEGATIVE valuations the result lies in [0, 100] (a
negative valuation can exceed 100, see the counterexample), and it is 0
for every monotonically non-decreasing series. -/
theorem maxDrawdown_amended (vals : List ℚ) (h2 : 2 ≤ vals.length) :
    ((∀ v ∈ vals, 0 ≤ v) → ∃ e, maxDrawdown vals = .num e ∧ 0 ≤ e ∧ e ≤ 100)
    ∧ (vals.Pairwise (· ≤ ·) → maxDrawdown vals = .num 0) := by
  cases vals with
  | nil => simp at h2
  | cons v t =>
    constructor
    · intro hnn
      have hv : 0 ≤ v := hnn v (List.mem_cons_self _ _)
      exact ddFold_bound (v :: t) (List.headD (v :: t) 0) 0 (by simpa using hv)
        (le_refl 0) (by norm_num) hnn
    · intro hmono
      have hchain : List.Chain (· ≤ ·) v (v :: t) :=
        List.Chain.cons (le_refl v) (List.chain'_iff_pairwise.mpr hmono)
      exact ddFold_monotone (v :: t) (List.headD (v :: t) 0) (by simpa using hchain)

theorem maxDrawdown_amended_witness :
    ∃ e, maxDrawdown [100, 50] = .num e ∧ 0 ≤ e ∧ e ≤ 100 :=
  (maxDrawdown_amended [100, 50] (by decide)).1 (by decide)

/-- C8 counterexample: the computed period returns of
`[100, 120, 90, 150]` are not `[0.20, -0.25, 0.667]` — the third one is
`(150 - 90) / 90 = 2/3 = 0.666...`, not `0.667`. -/
theorem example_series_returns_ne :
    periodReturns [100, 120, 90, 150]
      ≠ [some (20 / 100), some (-(25 / 100)), some (667 / 1000)] := by
  norm_num [periodReturns]

/-- C8 (amended): the valuation series `[100, 120, 90, 150]` yields the
exact period returns `[1/5, -1/4, 2/3]` (0.20, -0.25, 0.666...; the spec
value 0.667 is a rounding of 2/3) and a max drawdown of
`(120 - 90)/120 * 100 = 25`. -/
theorem example_series_amended :
    periodReturns [100, 120, 90, 150] = [some (1 / 5), some (-(1 / 4)), some (2 / 3)]
      ∧ maxDrawdown [100, 120, 90, 150] = .num 25 := by
  constructor
  · norm_num [periodReturns]
  · norm_num [maxDrawdown, ddStep, newPeak, ddOf, fdiv, npScale, npGt]

/-! ### Volatility

export_dashboard.py line 534: `np.std(returns) * np.sqrt(252) * 100`
(applied to the returns of the HOURLY valuation series);
generate_static_dashboard.py line 487:
`np.std(returns) * np.sqrt(252) * 100 if len(returns) > 0 else 0`
(applied to the returns of the DAILY valuation series).  Both apply the
same `sqrt(252)` annualization factor; only the upstream bucket
granularity differs. -/

/-- Population variance as used by `np.std` (default `ddof=0`). -/
def npVarQ (rs : List ℚ) : ℚ :=
  (rs.map (fun r => (r - rs.sum / rs.length) ^ 2)).sum / rs.length

/-- `np.std` of a list of finite floats. -/
noncomputable def npStd (rs : List ℚ) : ℝ := Real.sqrt (npVarQ rs)

/-- Volatility of export_dashboard.py from the valuation series `vals`
(returned only when every period return is defined; a NaN/inf return,
`none` in `periodReturns`, poisons `np.std` to NaN, modelled `none`). -/
noncomputable def volatilityExport (vals : List ℚ) : Option ℝ :=
  if (periodReturns vals).all (fun r => r.isSome) then
    some (npStd ((periodReturns vals).reduceOption) * Real.sqrt 252 * 100)
  else none

/-- Volatility of generate_static_dashboard.py: same formula with the
extra `if len(returns) > 0 else 0` branch. -/
noncomputable def volatilityStatic (vals : List ℚ) : Option ℝ :=
  if (periodReturns vals).all (fun r => r.isSome) then
    some (if 0 < (periodReturns vals).length
          then npStd ((periodReturns vals).reduceOption) * Real.sqrt 252 * 100
          else 0)
  else none

/-- C7: for a valuation series of at least 2 points (with nonzero values
so the period returns are defined), BOTH files compute the volatility as
`stddev(period returns) * sqrt(252) * 100` — the `sqrt(252)`
annualization factor is applied unconditionally, although the export
pipeline feeds hourly buckets and the static pipeline daily buckets into
`vals`. -/
theorem volatility_annualization (vals : List ℚ) (h2 : 2 ≤ vals.length)
    (hz : ∀ v ∈ vals, v ≠ 0) :
    volatilityExport vals
        = some (npStd ((periodReturns vals).reduceOption) * Real.sqrt 252 * 100)
      ∧ volatilityStatic vals
        = some (npStd ((periodReturns vals).reduceOption) * Real.sqrt 252 * 100) := by
  have hall : (periodReturns vals).all (fun r => r.isSome) = true := by
    rw [List.all_eq_true]
    intro r hr
    rcases List.mem_map.mp hr with ⟨p, hp, hfr⟩
    obtain ⟨a, b⟩ := p
    have hp1 : a ∈ vals := (List.of_mem_zip hp).1
    rw [← hfr]
    show (if a = 0 then none else some ((b - a) / a)).isSome = true
    rw [if_neg (hz a hp1)]
    rfl
  have hlen : 0 < (periodReturns vals).length := by
    unfold periodReturns
    rw [List.length_map, List.length_zip, List.length_tail]
    omega
  constructor
  · unfold volatilityExport
    rw [if_pos hall]
  · unfold volatilityStatic
    rw [if_pos hall, if_pos hlen]

theorem volatility_annualization_witness :
    volatilityExport [1, 2]
        = some (npStd ((periodReturns [1, 2]).reduceOption) * Real.sqrt 252 * 100)
      ∧ volatilityStatic [1, 2]
        = some (npStd ((periodReturns [1, 2]).reduceOption) * Real.sqrt 252 * 100) :=
  volatility_annualization [1, 2] (by norm_num) (by norm_num)

/-! ### Best / worst stock

generate_static_dashboard.py lines 464-483: for each tracked stock with
more than one row, `ret = ((last_price - first_price) / first_price) * 100`
with `first_price = stock_data["close"].iloc[0]` and
`last_price = stock_data["close"].iloc[-1]` (positional, nulls included:
a null close is NaN, and a NaN return fails both comparisons so the
ticker is silently skipped); `best_stock` / `worst_stock` track the
strict maximum / minimum, so the first-encountered ticker wins ties.
The stored label is a formatted string containing the ticker name; the
model keeps just the ticker name. -/

/-- `df[df["ticker"] == stock]`. -/
def stockRows (df : List Row) (s : String) : List Row :=
  df.filter (fun r => r.ticker == s)

/-- The return the code computes for the rows of one ticker: closes of
the positionally first and last rows, NaN if either is null, IEEE
special values if `first_price` is zero. -/
def retVal (rows : List Row) : NpVal :=
  match rows.head?, rows.getLast? with
  | some r0, some rl =>
    match r0.close, rl.close with
    | some f, some l => npScale (fdiv (l - f) f) 100
    | _, _ => .nan
  | _, _ => .nan

/-- One iteration of the best/worst loop on the state
(best_stock, best_return, worst_stock, worst_return). -/
def bwStep (df : List Row) (st : String × NpVal × String × NpVal) (s : String) :
    String × NpVal × String × NpVal :=
  if (stockRows df s).length ≤ 1 then st
  else
    ((if npGt (retVal (stockRows df s)) st.2.1 then s else st.1),
     (if npGt (retVal (stockRows df s)) st.2.1 then retVal (stockRows df s) else st.2.1),
     (if npLt (retVal (stockRows df s)) st.2.2.2 then s else st.2.2.1),
     (if npLt (retVal (stockRows df s)) st.2.2.2 then retVal (stockRows df s) else st.2.2.2))

/-- The loop of lines 470-483, starting from
`best_stock = worst_stock = "N/A"`, `best_return = -inf`,
`worst_return = +inf`. -/
def bestWorst (df : List Row) (stocks : List String) : String × NpVal × String × NpVal :=
  stocks.foldl (bwStep df) ("N/A", .neginf, "N/A", .inf)

/-- Instrument return per the claim wording: needs at least 2 close
OBSERVATIONS anywhere in the log for the ticker, and uses the first and
last observed (non-null) closes; a zero first price is treated as the
undefined marker `none`. -/
def specRet (df : List Row) (s : String) : Option ℚ :=
  if 2 ≤ ((stockRows df s).filterMap (fun r => r.close)).length then
    match ((stockRows df s).filterMap (fun r => r.close)).head?,
          ((stockRows df s).filterMap (fun r => r.close)).getLast? with
    | some f, some l => if f = 0 then none else some ((l - f) / f * 100)
    | _, _ => none
  else none

/-- First-encountered maximizer of a partial score over a ticker list. -/
def argmaxFirst (f : String → Option ℚ) : List String → Option (String × ℚ)
  | [] => none
  | s :: ss =>
    match f s with
    | none => argmaxFirst f ss
    | some v =>
      match argmaxFirst f ss with
      | none => some (s, v)
      | some (s2, v2) => if v < v2 then some (s2, v2) else some (s, v)

/-- First-encountered minimizer of a partial score over a ticker list. -/
def argminFirst (f : String → Option ℚ) : List String → Option (String × ℚ)
  | [] => none
  | s :: ss =>
    match f s with
    | none => argminFirst f ss
    | some v =>
      match argminFirst f ss with
      | none => some (s, v)
      | some (s2, v2) => if v2 < v then some (s2, v2) else some (s, v)

/-- `best_stock` as the claim describes it: the first-encountered ticker
maximizing the claimed instrument return. -/
def specBest (df : List Row) (stocks : List String) : Option String :=
  (argmaxFirst (specRet df) stocks).map Prod.fst

/-- Log where ticker A has two non-null closes (10, 15: return 50%) and
ticker B has a null first close followed by two non-null closes
(10, 30: +200% between the observations). -/
def bwDemoDf : List Row :=
  [ ⟨0, "A", "PRICE", 0, some 10, none, none⟩,
    ⟨1, "A", "PRICE", 0, some 15, none, none⟩,
    ⟨0, "B", "PRICE", 0, none, none, none⟩,
    ⟨1, "B", "PRICE", 0, some 10, none, none⟩,
    ⟨2, "B", "PRICE", 0, some 30, none, none⟩ ]

/-- C6 counterexample: the claim says a ticker with at least 2 close
observations gets the return of its first/last observations and the best
stock is the maximum of those (which here is B at +200%).  The code uses
the positionally first row of B, whose close is null, so the return is
NaN and B is silently skipped: the computed best stock is A. -/
theorem bestStock_skips_null_first_close :
    (bestWorst bwDemoDf ["A", "B"]).1 = "A"
      ∧ specBest bwDemoDf ["A", "B"] = some "B" := by
  have hA : stockRows bwDemoDf "A"
      = [⟨0, "A", "PRICE", 0, some 10, none, none⟩,
         ⟨1, "A", "PRICE", 0, some 15, none, none⟩] := by
    simp [stockRows, bwDemoDf]
  have hB : stockRows bwDemoDf "B"
      = [⟨0, "B", "PRICE", 0, none, none, none⟩,
         ⟨1, "B", "PRICE", 0, some 10, none, none⟩,
         ⟨2, "B", "PRICE", 0, some 30, none, none⟩] := by
    simp [stockRows, bwDemoDf]
  constructor
  · have hrA : retVal (stockRows bwDemoDf "A") = .num 50 := by
      rw [hA]
      norm_num [retVal, fdiv, npScale]
    have hrB : retVal (stockRows bwDemoDf "B") = .nan := by
      rw [hB]
      rfl
    show (bwStep bwDemoDf (bwStep bwDemoDf ("N/A", .neginf, "N/A", .inf) "A") "B").1 = "A"
    rw [bwStep, bwStep, hrA, hrB, hA, hB]
    norm_num [npGt, npLt]
  · have hoA : (stockRows bwDemoDf "A").filterMap (fun r => r.close) = [10, 15] := by
      rw [hA]
      rfl
    have hoB : (stockRows bwDemoDf "B").filterMap (fun r => r.close) = [10, 30] := by
      rw [hB]
      rfl
    have hsA : specRet bwDemoDf "A" = some 50 := by
      rw [specRet, hoA]
      norm_num
    have hsB : specRet bwDemoDf "B" = some 200 := by
      rw [specRet, hoB]
      norm_num
    rw [specBest, argmaxFirst, hsA, argmaxFirst, hsB, argmaxFirst]
    norm_num

/-- The return the loop computes in the well-defined case: more than one
row for the ticker, first and last row closes non-null, nonzero first
close.  `none` marks a skipped or NaN/infinite ticker. -/
def codeRet (df : List Row) (s : String) : Option ℚ :=
  if (stockRows df s).length ≤ 1 then none
  else
    match (stockRows df s).head?, (stockRows df s).getLast? with
    | some r0, some rl =>
      match r0.close, rl.close with
      | some f, some l => if f = 0 then none else some ((l - f) / f * 100)
      | _, _ => none
    | _, _ => none

/-- Hypothesis of the amended claim: every considered ticker is either
skipped (at most one row) or has non-null first and last row closes with
a nonzero first close, so no NaN or infinite return enters the loop. -/
def CleanTicker (df : List Row) (s : String) : Prop :=
  1 < (stockRows df s).length →
    ∃ f l, ((stockRows df s).head?.bind (fun r => r.close)) = some f
      ∧ ((stockRows df s).getLast?.bind (fun r => r.close)) = some l
      ∧ f ≠ 0

theorem retVal_clean {df : List Row} {s : String} (h : CleanTicker df s)
    (hlen : 1 < (stockRows df s).length) :
    ∃ v, retVal (stockRows df s) = .num v ∧ codeRet df s = some v := by
  rcases h hlen with ⟨f, l, hf, hl, hf0⟩
  rcases Option.bind_eq_some.mp hf with ⟨r0, hr0, hr0c⟩
  rcases Option.bind_eq_some.mp hl with ⟨rl, hrl, hrlc⟩
  refine ⟨(l - f) / f * 100, ?_, ?_⟩
  · unfold retVal
    rw [hr0, hrl]
    show (match r0.close, rl.close with
          | some f, some l => npScale (fdiv (l - f) f) 100
          | _, _ => NpVal.nan) = NpVal.num ((l - f) / f * 100)
    rw [hr0c, hrlc]
    show npScale (fdiv (l - f) f) 100 = NpVal.num ((l - f) / f * 100)
    unfold fdiv
    rw [if_neg hf0]
    rfl
  · unfold codeRet
    rw [if_neg (not_le.mpr hlen), hr0, hrl]
    show (match r0.close, rl.close with
          | some f, some l => if f = 0 then none else some ((l - f) / f * 100)
          | _, _ => none) = some ((l - f) / f * 100)
    rw [hr0c, hrlc]
    show (if f = 0 then none else some ((l - f) / f * 100)) = some ((l - f) / f * 100)
    rw [if_neg hf0]

theorem npGt_num_mono {v w : ℚ} (hvw : v ≤ w) {b : NpVal}
    (h : npGt (.num v) b = true) : npGt (.num w) b = true := by
  cases b with
  | num q =>
    have hq : q < v := of_decide_eq_true h
    exact decide_eq_true (lt_of_lt_of_le hq hvw)
  | nan => exact Bool.noConfusion h
  | inf => exact Bool.noConfusion h
  | neginf => rfl

theorem npLt_num_mono {v w : ℚ} (hwv : w ≤ v) {b : NpVal}
    (h : npLt (.num v) b = true) : npLt (.num w) b = true := by
  cases b with
  | num q =>
    have hq : v < q := of_decide_eq_true h
    exact decide_eq_true (lt_of_le_of_lt hwv hq)
  | nan => exact Bool.noConfusion h
  | inf => rfl
  | neginf => exact Bool.noConfusion h

/-- Update of the (best_stock, best_return) component by one defined or
skipped return. -/
def updMax (acc : String × NpVal) : Option (String × ℚ) → String × NpVal
  | none => acc
  | some (s, v) => if npGt (.num v) acc.2 then (s, .num v) else acc

/-- Update of the (worst_stock, worst_return) component. -/
def updMin (acc : String × NpVal) : Option (String × ℚ) → String × NpVal
  | none => acc
  | some (s, v) => if npLt (.num v) acc.2 then (s, .num v) else acc

theorem updMax_some (acc : String × NpVal) (s : String) (v : ℚ) :
    updMax acc (some (s, v)) = if npGt (.num v) acc.2 then (s, .num v) else acc := rfl

theorem updMin_some (acc : String × NpVal) (s : String) (v : ℚ) :
    updMin acc (some (s, v)) = if npLt (.num v) acc.2 then (s, .num v) else acc := rfl

/-- Combining one defined return into a running first-encountered max. -/
def combineMax (s : String) (v : ℚ) : Option (String × ℚ) → Option (String × ℚ)
  | none => some (s, v)
  | some (s2, v2) => if v < v2 then some (s2, v2) else some (s, v)

/-- Combining one defined return into a running first-encountered min. -/
def combineMin (s : String) (v : ℚ) : Option (String × ℚ) → Option (String × ℚ)
  | none => some (s, v)
  | some (s2, v2) => if v2 < v then some (s2, v2) else some (s, v)

theorem argmaxFirst_cons (f : String → Option ℚ) (s : String) (ss : List String) :
    argmaxFirst f (s :: ss) = match f s with
      | none => argmaxFirst f ss
      | some v => combineMax s v (argmaxFirst f ss) := by
  cases hfs : f s with
  | none => simp only [argmaxFirst, hfs]
  | some v =>
    simp only [argmaxFirst, hfs]
    cases argmaxFirst f ss with
    | none => rfl
    | some p => obtain ⟨s2, v2⟩ := p; rfl

theorem argminFirst_cons (f : String → Option ℚ) (s : String) (ss : List String) :
    argminFirst f (s :: ss) = match f s with
      | none => argminFirst f ss
      | some v => combineMin s v (argminFirst f ss) := by
  cases hfs : f s with
  | none => simp only [argminFirst, hfs]
  | some v =>
    simp only [argminFirst, hfs]
    cases argminFirst f ss with
    | none => rfl
    | some p => obtain ⟨s2, v2⟩ := p; rfl

theorem updMax_comp (acc : String × NpVal) (s : String) (v : ℚ)
    (m : Option (String × ℚ)) :
    updMax (updMax acc (some (s, v))) m = updMax acc (combineMax s v m) := by
  cases m with
  | none => rfl
  | some p =>
    obtain ⟨s2, v2⟩ := p
    show updMax (updMax acc (some (s, v))) (some (s2, v2))
        = updMax acc (if v < v2 then some (s2, v2) else some (s, v))
    by_cases hvb : npGt (.num v) acc.2 = true
    · by_cases hvv : v < v2
      · have h2 : npGt (.num v2) (.num v) = true := decide_eq_true hvv
        have h3 : npGt (.num v2) acc.2 = true := npGt_num_mono (le_of_lt hvv) hvb
        simp [updMax, hvb, hvv, h2, h3]
      · have h2 : npGt (.num v2) (.num v) = false := decide_eq_false hvv
        simp [updMax, hvb, hvv, h2]
    · by_cases hvv : v < v2
      · simp [updMax, hvb, hvv]
      · have h4 : npGt (.num v2) acc.2 = false := by
          cases h5 : npGt (.num v2) acc.2 with
          | false => rfl
          | true => exact absurd (npGt_num_mono (le_of_not_lt hvv) h5) hvb
        simp [updMax, hvb, hvv, h4]

theorem updMin_comp (acc : String × NpVal) (s : String) (v : ℚ)
    (m : Option (String × ℚ)) :
    updMin (updMin acc (some (s, v))) m = updMin acc (combineMin s v m) := by
  cases m with
  | none => rfl
  | some p =>
    obtain ⟨s2, v2⟩ := p
    show updMin (updMin acc (some (s, v))) (some (s2, v2))
        = updMin acc (if v2 < v then some (s2, v2) else some (s, v))
    by_cases hvb : npLt (.num v) acc.2 = true
    · by_cases hvv : v2 < v
      · have h2 : npLt (.num v2) (.num v) = true := decide_eq_true hvv
        have h3 : npLt (.num v2) acc.2 = true := npLt_num_mono (le_of_lt hvv) hvb
        simp [updMin, hvb, hvv, h2, h3]
      · have h2 : npLt (.num v2) (.num v) = false := decide_eq_false hvv
        simp [updMin, hvb, hvv, h2]
    · by_cases hvv : v2 < v
      · simp [updMin, hvb, hvv]
      · have h4 : npLt (.num v2) acc.2 = false := by
          cases h5 : npLt (.num v2) acc.2 with
          | false => rfl
          | true => exact absurd (npLt_num_mono (le_of_not_lt hvv) h5) hvb
        simp [updMin, hvb, hvv, h4]

theorem bw_fold (df : List Row) (ss : List String)
    (hclean : ∀ s ∈ ss, CleanTicker df s) :
    ∀ (bs ws : String) (br wr : NpVal),
    ss.foldl (bwStep df) (bs, br, ws, wr)
      = ((updMax (bs, br) (argmaxFirst (codeRet df) ss)).1,
         (updMax (bs, br) (argmaxFirst (codeRet df) ss)).2,
         (updMin (ws, wr) (argminFirst (codeRet df) ss)).1,
         (updMin (ws, wr) (argminFirst (codeRet df) ss)).2) := by
  induction ss with
  | nil => intro bs ws br wr; rfl
  | cons s ss ih =>
    intro bs ws br wr
    have hcs := hclean s (List.mem_cons_self _ _)
    have hss : ∀ x ∈ ss, CleanTicker df x := fun x hx => hclean x (List.mem_cons_of_mem _ hx)
    rw [List.foldl_cons]
    by_cases hlen : (stockRows df s).length ≤ 1
    · have hstep : bwStep df (bs, br, ws, wr) s = (bs, br, ws, wr) := by
        unfold bwStep; rw [if_pos hlen]
      have hcr : codeRet df s = none := by unfold codeRet; rw [if_pos hlen]
      have hmax : argmaxFirst (codeRet df) (s :: ss) = argmaxFirst (codeRet df) ss := by
        rw [argmaxFirst_cons, hcr]
      have hmin : argminFirst (codeRet df) (s :: ss) = argminFirst (codeRet df) ss := by
        rw [argminFirst_cons, hcr]
      rw [hstep, hmax, hmin, ih hss bs ws br wr]
    · obtain ⟨v, hret, hcode⟩ := retVal_clean hcs (not_le.mp hlen)
      have hstep : bwStep df (bs, br, ws, wr) s
          = ((updMax (bs, br) (some (s, v))).1, (updMax (bs, br) (some (s, v))).2,
             (updMin (ws, wr) (some (s, v))).1, (updMin (ws, wr) (some (s, v))).2) := by
        unfold bwStep
        rw [if_neg hlen, hret, updMax_some, updMin_some]
        by_cases h1 : npGt (.num v) br = true <;> by_cases h2 : npLt (.num v) wr = true <;>
          simp [h1, h2]
      have hmax : argmaxFirst (codeRet df) (s :: ss)
          = combineMax s v (argmaxFirst (codeRet df) ss) := by
        rw [argmaxFirst_cons, hcode]
      have hmin : argminFirst (codeRet df) (s :: ss)
          = combineMin s v (argminFirst (codeRet df) ss) := by
        rw [argminFirst_cons, hcode]
      rw [hstep, hmax, hmin, ih hss]
      simp only [Prod.mk.eta]
      rw [updMax_comp, updMin_comp]

/-- Final (best_stock, best_return) from the first-encountered maximizer. -/
def fromMax : Option (String × ℚ) → String × NpVal
  | none => ("N/A", .neginf)
  | some (s, v) => (s, .num v)

/-- Final (worst_stock, worst_return) from the first-encountered minimizer. -/
def fromMin : Option (String × ℚ) → String × NpVal
  | none => ("N/A", .inf)
  | some (s, v) => (s, .num v)

theorem updMax_init (m : Option (String × ℚ)) :
    updMax ("N/A", .neginf) m = fromMax m := by
  cases m with
  | none => rfl
  | some p =>
    obtain ⟨s, v⟩ := p
    show (if npGt (.num v) (("N/A", NpVal.neginf) : String × NpVal).2 = true
          then (s, NpVal.num v) else ("N/A", NpVal.neginf)) = (s, NpVal.num v)
    simp [npGt]

theorem updMin_init (m : Option (String × ℚ)) :
    updMin ("N/A", .inf) m = fromMin m := by
  cases m with
  | none => rfl
  | some p =>
    obtain ⟨s, v⟩ := p
    show (if npLt (.num v) (("N/A", NpVal.inf) : String × NpVal).2 = true
          then (s, NpVal.num v) else ("N/A", NpVal.inf)) = (s, NpVal.num v)
    simp [npLt, npGt]

/-- C6 (amended): for each tracked ticker the loop uses the closes of
the positionally first and last rows of the ticker, skipping tickers
with at most one row; a null first or last close gives a NaN return and
the ticker is silently dropped from both comparisons, and a zero first
close is unguarded — it yields an IEEE infinity (second conjunct), not a
fault.  When every tracked ticker is either skipped or has well-defined
closes with a nonzero first close, best_stock/best_return is exactly the
first-encountered maximizer of `(last - first)/first * 100` over the
non-skipped tickers (ties resolved to the earlier ticker) and
worst_stock/worst_return the first-encountered minimizer; "N/A" when no
ticker qualifies. -/
theorem bestWorst_amended (df : List Row) (stocks : List String)
    (hclean : ∀ s ∈ stocks, CleanTicker df s) :
    (bestWorst df stocks
      = ((fromMax (argmaxFirst (codeRet df) stocks)).1,
         (fromMax (argmaxFirst (codeRet df) stocks)).2,
         (fromMin (argminFirst (codeRet df) stocks)).1,
         (fromMin (argminFirst (codeRet df) stocks)).2))
    ∧ ∀ (rows : List Row) (l : ℚ),
        (rows.head?.bind (fun r => r.close)) = some 0 →
        (rows.getLast?.bind (fun r => r.close)) = some l →
        0 < l → retVal rows = .inf := by
  constructor
  · unfold bestWorst
    rw [bw_fold df stocks hclean "N/A" "N/A" .neginf .inf, updMax_init, updMin_init]
  · intro rows l h0 hl hpos
    rcases Option.bind_eq_some.mp h0 with ⟨r0, hr0, hr0c⟩
    rcases Option.bind_eq_some.mp hl with ⟨rl, hrl, hrlc⟩
    unfold retVal
    rw [hr0, hrl]
    show (match r0.close, rl.close with
          | some f, some l => npScale (fdiv (l - f) f) 100
          | _, _ => NpVal.nan) = NpVal.inf
    rw [hr0c, hrlc]
    show npScale (fdiv (l - 0) 0) 100 = NpVal.inf
    unfold fdiv
    rw [if_pos rfl, if_neg (by linarith : ¬(l - 0 = 0)), if_pos (by linarith : (0 : ℚ) < l - 0)]
    rfl

/-- Log where both tickers have exactly two rows with non-null closes:
A returns +100% (10 to 20) and B returns -50% (10 to 5). -/
def bwCleanDf : List Row :=
  [ ⟨0, "A", "PRICE", 0, some 10, none, none⟩,
    ⟨1, "A", "PRICE", 0, some 20, none, none⟩,
    ⟨0, "B", "PRICE", 0, some 10, none, none⟩,
    ⟨1, "B", "PRICE", 0, some 5, none, none⟩ ]

theorem bestWorst_amended_witness :
    bestWorst bwCleanDf ["A", "B"]
      = ((fromMax (argmaxFirst (codeRet bwCleanDf) ["A", "B"])).1,
         (fromMax (argmaxFirst (codeRet bwCleanDf) ["A", "B"])).2,
         (fromMin (argminFirst (codeRet bwCleanDf) ["A", "B"])).1,
         (fromMin (argminFirst (codeRet bwCleanDf) ["A", "B"])).2) :=
  (bestWorst_amended bwCleanDf ["A", "B"] (by
    have hA : stockRows bwCleanDf "A"
        = [⟨0, "A", "PRICE", 0, some 10, none, none⟩,
           ⟨1, "A", "PRICE", 0, some 20, none, none⟩] := by
      simp [stockRows, bwCleanDf]
    have hB : stockRows bwCleanDf "B"
        = [⟨0, "B", "PRICE", 0, some 10, none, none⟩,
           ⟨1, "B", "PRICE", 0, some 5, none, none⟩] := by
      simp [stockRows, bwCleanDf]
    intro s hs
    rcases List.mem_cons.mp hs with h | hs
    · subst h
      intro _
      exact ⟨10, 20, by rw [hA]; rfl, by rw [hA]; rfl, by norm_num⟩
    rcases List.mem_cons.mp hs with h | hs
    · subst h
      intro _
      exact ⟨10, 5, by rw [hB]; rfl, by rw [hB]; rfl, by norm_num⟩
    · exact absurd hs (List.not_mem_nil s))).1

/-! ### The "ultra-simple MVP" total value (generate_dashboard.py, lines 27-47)

`latest_data = df.sort_values("timestamp").groupby("ticker").last()`:
pandas `GroupBy.last()` takes, per group and PER COLUMN, the last
non-null entry (it skips NA by default) — not the values of the latest
row.  Group keys come out sorted alphabetically, and within a group the
rows keep the order of the sorted frame.  Then, per ticker, if the
aggregated `position_after` and `cash_after` are both non-null the value
`position_after * close` (aggregated values) is added to the total, and
finally `cash = latest_data["cash_after"].dropna().iloc[-1]` (the
aggregated cash of the alphabetically last ticker having one, 0 when
none) is added. -/

/-- Insertion preserving order of ties, for the alphabetical group keys. -/
def insertStr (a : String) : List String → List String
  | [] => [a]
  | b :: l => if b < a then b :: insertStr a l else a :: b :: l

def sortStr : List String → List String
  | [] => []
  | a :: l => insertStr a (sortStr l)

/-- Distinct tickers in order of first appearance. -/
def uniqueStr (seen : List String) : List String → List String
  | [] => []
  | a :: l => if a ∈ seen then uniqueStr seen l else a :: uniqueStr (a :: seen) l

/-- `latest_data.index`: the distinct tickers, alphabetically. -/
def mvpTickers (df : List Row) : List String :=
  sortStr (uniqueStr [] (df.map (fun r => r.ticker)))

/-- Rows of one ticker inside the timestamp-sorted frame (the contents
of one groupby group, in group order). -/
def mvpRows (df : List Row) (t : String) : List Row :=
  (sortByTs df).filter (fun r => r.ticker == t)

/-- One iteration of the total-value loop: add
`position_after * close` (per-column last non-null values) when the
aggregated `position_after` and `cash_after` are both non-null; a ticker
with no non-null close then contributes `NaN` to the float total. -/
def mvpHoldingStep (df : List Row) (acc : NpVal) (t : String) : NpVal :=
  match lastSome (fun r => r.position_after) (mvpRows df t),
        lastSome (fun r => r.cash_after) (mvpRows df t) with
  | some p, some _ =>
    match lastSome (fun r => r.close) (mvpRows df t) with
    | some c => npAdd acc (.num ((p : ℚ) * c))
    | none => npAdd acc .nan
  | _, _ => acc

/-- `latest_data["cash_after"].dropna().iloc[-1]` with the 0 default. -/
def mvpCashTerm (df : List Row) : ℚ :=
  (((mvpTickers df).filterMap
      (fun t => lastSome (fun r => r.cash_after) (mvpRows df t))).getLast?).getD 0

/-- `total_value` of generate_dashboard.py `main`. -/
def mvpTotalValue (df : List Row) : NpVal :=
  npAdd ((mvpTickers df).foldl (mvpHoldingStep df) (.num 0)) (.num (mvpCashTerm df))

/-- The latest (positionally last) row of a ticker in the sorted frame,
which is what the claim reads `groupby(...).last()` as. -/
def latestRowOf (df : List Row) (t : String) : Option Row := (mvpRows df t).getLast?

/-- Holding contribution as the claim describes it: `position_after *
close` of the LATEST ROW, only when that row has both `position_after`
and `cash_after` non-null. -/
def claimC10Holding (df : List Row) (t : String) : ℚ :=
  match latestRowOf df t with
  | some r =>
    if r.position_after.isSome && r.cash_after.isSome
    then ((r.position_after.getD 0 : Int) : ℚ) * r.close.getD 0 else 0
  | none => 0

/-- Cash as the claim describes it: the last non-null `cash_after` among
the per-ticker LATEST ROWS in ticker-name order. -/
def claimC10Cash (df : List Row) : ℚ :=
  (((mvpTickers df).filterMap
      (fun t => (latestRowOf df t).bind (fun r => r.cash_after))).getLast?).getD 0

/-- Total value as the claim describes it. -/
def claimC10Total (df : List Row) : NpVal :=
  .num (((mvpTickers df).map (claimC10Holding df)).sum + claimC10Cash df)

/-- Ticker A: an early full checkpoint row (position 5, cash 100,
close 10) followed by a later plain price row (close 20, both
checkpoint columns null). -/
def mvpDemoDf : List Row :=
  [ ⟨0, "A", "BUY", 5, some 10, some 5, some 100⟩,
    ⟨1, "A", "PRICE", 0, some 20, none, none⟩ ]

/-- C10 counterexample: the claim keys the contribution and the cash on
the ticker's LATEST ROW (here the later price row, whose checkpoint
columns are null, so the claim predicts a total of 0).  pandas
`groupby().last()` instead aggregates the last non-null entry per
column, so the code takes position 5, cash 100 and close 20 and computes
5 * 20 + 100 = 200. -/
theorem simple_total_value_ne_claim :
    mvpTotalValue mvpDemoDf = .num 200 ∧ claimC10Total mvpDemoDf = .num 0 := by
  have hsort : sortByTs mvpDemoDf = mvpDemoDf := by
    simp [sortByTs, insertByTs, mvpDemoDf]
  have htick : mvpTickers mvpDemoDf = ["A"] := by
    simp [mvpTickers, uniqueStr, sortStr, insertStr, mvpDemoDf]
  have hrows : mvpRows mvpDemoDf "A" = mvpDemoDf := by
    rw [mvpRows, hsort]
    simp [mvpDemoDf]
  have hcashA : lastSome (fun r => r.cash_after) (mvpRows mvpDemoDf "A") = some 100 := by
    rw [hrows]
    rfl
  have hcash : mvpCashTerm mvpDemoDf = 100 := by
    rw [mvpCashTerm, htick]
    simp [hcashA]
  constructor
  · rw [mvpTotalValue, htick]
    rw [List.foldl_cons]
    rw [mvpHoldingStep, hrows]
    show npAdd (npAdd (.num 0) (.num ((5 : ℚ) * 20))) (.num (mvpCashTerm mvpDemoDf)) = _
    rw [hcash]
    norm_num [npAdd]
  · have hlr : latestRowOf mvpDemoDf "A" = some ⟨1, "A", "PRICE", 0, some 20, none, none⟩ := by
      rw [latestRowOf, hrows]
      rfl
    have hch : claimC10Holding mvpDemoDf "A" = 0 := by
      rw [claimC10Holding, hlr]
      rfl
    have hcc : claimC10Cash mvpDemoDf = 0 := by
      rw [claimC10Cash, htick]
      simp [hlr]
    rw [claimC10Total, htick]
    simp [hch, hcc]

theorem mvpRows_eq (df : List Row) (t : String) :
    mvpRows df t = sortByTs (df.filter (fun r => r.ticker == t)) := by
  unfold mvpRows
  exact filter_sortByTs _ _

/-- Holding contribution as amended: the ticker's rows in timestamp
order; when it has a non-null `position_after` AND a non-null
`cash_after` somewhere, the contribution is (last non-null
`position_after`) times (last non-null `close`) — `NaN` when every
`close` is null — and 0 otherwise. -/
def amendedHolding (df : List Row) (t : String) : NpVal :=
  match lastSome (fun r => r.position_after) (sortByTs (df.filter (fun r => r.ticker == t))),
        lastSome (fun r => r.cash_after) (sortByTs (df.filter (fun r => r.ticker == t))) with
  | some p, some _ =>
    match lastSome (fun r => r.close) (sortByTs (df.filter (fun r => r.ticker == t))) with
    | some c => .num ((p : ℚ) * c)
    | none => .nan
  | _, _ => .num 0

/-- Total value as amended: sum of the per-ticker contributions over the
alphabetically sorted tickers, plus the last non-null per-ticker
aggregated `cash_after` in ticker-name order (the alphabetically last
ticker carrying one, not the chronologically latest checkpoint). -/
def amendedTotal (df : List Row) : NpVal :=
  npAdd (((mvpTickers df).map (amendedHolding df)).foldl npAdd (.num 0))
    (.num ((((mvpTickers df).filterMap
        (fun t => lastSome (fun r => r.cash_after)
          (sortByTs (df.filter (fun r => r.ticker == t))))).getLast?).getD 0))

theorem mvpHoldingStep_eq (df : List Row) (acc : NpVal) (t : String) :
    mvpHoldingStep df acc t = npAdd acc (amendedHolding df t) := by
  unfold mvpHoldingStep amendedHolding
  rw [mvpRows_eq]
  cases hp : lastSome (fun r => r.position_after)
      (sortByTs (df.filter (fun r => r.ticker == t))) with
  | none =>
    cases hc : lastSome (fun r => r.cash_after)
        (sortByTs (df.filter (fun r => r.ticker == t))) <;>
      simp [npAdd_num_zero]
  | some p =>
    cases hc : lastSome (fun r => r.cash_after)
        (sortByTs (df.filter (fun r => r.ticker == t))) with
    | none => simp [npAdd_num_zero]
    | some c0 =>
      cases hcl : lastSome (fun r => r.close)
          (sortByTs (df.filter (fun r => r.ticker == t))) <;> simp

theorem mvpFold_eq (df : List Row) (ts : List String) :
    ∀ acc : NpVal, ts.foldl (mvpHoldingStep df) acc
      = (ts.map (amendedHolding df)).foldl npAdd acc := by
  induction ts with
  | nil => intro acc; rfl
  | cons t ts ih =>
    intro acc
    rw [List.foldl_cons, List.map_cons, List.foldl_cons, mvpHoldingStep_eq, ih]

/-- C10 (amended): the total value of the simple dashboard adds, for
every ticker having at least one non-null `position_after` and at least
one non-null `cash_after` among its rows (not: a fully non-null latest
row), the product of its last non-null `position_after` and last
non-null `close` in timestamp order, and then adds the last non-null
per-ticker aggregated `cash_after` in alphabetical ticker order — which
may come from the alphabetically last ticker rather than the
chronologically latest checkpoint. -/
theorem simple_total_value_amended (df : List Row) :
    mvpTotalValue df = amendedTotal df := by
  unfold mvpTotalValue amendedTotal mvpCashTerm
  rw [mvpFold_eq]
  have hfun : (fun t => lastSome (fun r => r.cash_after) (mvpRows df t))
      = (fun t => lastSome (fun r => r.cash_after)
          (sortByTs (df.filter (fun r => r.ticker == t)))) := by
    funext t
    rw [mvpRows_eq]
  rw [hfun]
